import Mathlib

/-!
Verification of the VesselExpress Image Format Bridge
(`VesselExpress/workflow/scripts/nifti_utils.py`).

The Python module is shallowly embedded as follows:
* numpy arrays of voxel samples become `List ℚ` (float64 samples are
  modelled by exact rationals; the algorithms under verification are
  linear rescaling, comparison, truncation and casting, all of which the
  source performs on values that the rational model represents exactly);
* numpy dtypes become the enumeration `DType`;
* an array together with its dtype becomes `NDArray`;
* `astype(np.uint16)` (a C-style float→unsigned cast) becomes
  `ratToUInt16`: truncation toward zero followed by reduction mod 2^16;
* path strings become `List Char`, and the `pathlib` / `str` operations
  used by the source (`Path.stem`, `str.endswith`, slicing,
  `str.replace`) are embedded as executable functions on `List Char`.
-/

/-- numpy element types that can reach the converter.  Mirrors the dtype
checks in `nifti_to_tiff` (which tests `np.float32` / `np.float64`). -/
inductive DType where
  | float16 | float32 | float64
  | uint8 | uint16 | uint32 | uint64
  | int8 | int16 | int32 | int64
deriving DecidableEq

/-- `True` exactly for numpy integer dtypes. -/
def DType.isInteger : DType → Bool
  | .uint8 | .uint16 | .uint32 | .uint64 => true
  | .int8 | .int16 | .int32 | .int64 => true
  | _ => false

/-- A numpy array: its element type and its (flattened) samples. -/
structure NDArray where
  dtype : DType
  data : List ℚ
deriving DecidableEq

/-- Truncation toward zero, the rounding mode of a C float→integer cast
(which is what numpy's `astype` performs). -/
def ratTrunc (q : ℚ) : ℤ := if 0 ≤ q then ⌊q⌋ else -⌊-q⌋

/-- Model of `astype(np.uint16)` applied to one float64 sample:
truncate toward zero, keep the low 16 bits. -/
def ratToUInt16 (q : ℚ) : ℕ := (ratTrunc q % 65536).toNat

/-- One sample of the rescaling branch of `nifti_to_tiff`:
`((v - data_min) / (data_max - data_min) * 65535).astype(np.uint16)`. -/
def normElem (mn mx v : ℚ) : ℕ := ratToUInt16 ((v - mn) / (mx - mn) * 65535)

/-- `data.min()` of a (nonempty) numpy array; `0` on the empty list,
on which numpy would raise. -/
def dataMin : List ℚ → ℚ
  | [] => 0
  | x :: xs => xs.foldl min x

/-- `data.max()` of a (nonempty) numpy array; `0` on the empty list. -/
def dataMax : List ℚ → ℚ
  | [] => 0
  | x :: xs => xs.foldl max x

/-- The dtype-conversion block of `nifti_to_tiff` (the Sample
Normalizer): floats are linearly rescaled to `[0, 65535]` and cast to
`uint16` when `data_max > data_min`, cast directly when not; any other
dtype passes through unmodified. -/
def normalizeArray (a : NDArray) : NDArray :=
  if a.dtype = DType.float32 ∨ a.dtype = DType.float64 then
    let mn := dataMin a.data
    let mx := dataMax a.data
    if mx > mn then
      ⟨DType.uint16, a.data.map (fun v => (normElem mn mx v : ℚ))⟩
    else
      ⟨DType.uint16, a.data.map (fun v => (ratToUInt16 v : ℚ))⟩
  else a

/-- The Spacing Remapper `get_pixel_dimensions_from_nifti`, abstracted
over the header zoom values and over Python's default float→string
rendering `fmt` (the f-string `f"..."` conversion): with 3 or more
zooms it returns `f"{zooms[2]},{zooms[1]},{zooms[0]}"`, otherwise the
literal default `"1.0,1.0,1.0"`. -/
def get_pixel_dimensions_from_nifti {α : Type} (fmt : α → String) (zooms : List α) : String :=
  match zooms with
  | z0 :: z1 :: z2 :: _ => fmt z2 ++ "," ++ fmt z1 ++ "," ++ fmt z0
  | _ => "1.0,1.0,1.0"

/-- Helper for `pyStem`: walking a reversed file name, drop everything
up to and including the first `'.'` (that is, the last `'.'` of the
original name); `none` when the name has no `'.'` at all. -/
def dropThroughFirstDot : List Char → Option (List Char)
  | [] => none
  | c :: rest => if c = '.' then some rest else dropThroughFirstDot rest

/-- CPython's `PurePath.stem` on a file name: the name with its last
suffix removed, where a suffix runs from the last `'.'` provided that
dot is neither the first nor the last character of the name. -/
def pyStem (name : List Char) : List Char :=
  if name.reverse.head? = some '.' then name
  else
    match dropThroughFirstDot name.reverse with
    | some rest => if rest = [] then name else rest.reverse
    | none => name

/-- Python's `stem.endswith(".nii")`. -/
def endsWithNii (s : List Char) : Bool :=
  match s.reverse with
  | 'i' :: 'i' :: 'n' :: '.' :: _ => true
  | _ => false

/-- The `if stem.endswith('.nii'): stem = stem[:-4]` step of
`nifti_to_tiff`. -/
def stripNii (s : List Char) : List Char :=
  if endsWithNii s then (s.reverse.drop 4).reverse else s

/-- The file-name part of the derived output path of `nifti_to_tiff`
when no output path is supplied: `Path.stem`, then strip a trailing
`".nii"`, then append `".tiff"`. -/
def deriveOutputName (fileName : List Char) : List Char :=
  stripNii (pyStem fileName) ++ ['.', 't', 'i', 'f', 'f']

/-- The full derived output path: `str(input_path_obj.parent / f"{stem}.tiff")`,
with the input path presented as a directory part and a file name. -/
def deriveOutputPath (parent fileName : List Char) : List Char :=
  parent ++ '/' :: deriveOutputName fileName

/-- `"_nifti_metadata.txt"`, the replacement string used to derive the
sidecar path. -/
def metaChars : List Char :=
  ['_', 'n', 'i', 'f', 't', 'i', '_', 'm', 'e', 't', 'a', 'd', 'a', 't', 'a', '.', 't', 'x', 't']

/-- `".tiff"`. -/
def tiffChars : List Char := ['.', 't', 'i', 'f', 'f']

/-- Python's `s.replace('.tiff', new)`, scanning left to right and
replacing every non-overlapping occurrence of `".tiff"` by `new`.  The
extra `ℕ` argument is a fuel bound (instantiated with the string length
by `replaceTiff`, and never exhausted, as every step consumes at least
one character per unit of fuel); it only makes the recursion
structural. -/
def replaceTiffFuel (new : List Char) : ℕ → List Char → List Char
  | 0, s => s
  | _ + 1, [] => []
  | fuel + 1, c1 :: s1 =>
    match s1 with
    | c2 :: c3 :: c4 :: c5 :: rest =>
      if c1 = '.' ∧ c2 = 't' ∧ c3 = 'i' ∧ c4 = 'f' ∧ c5 = 'f' then
        new ++ replaceTiffFuel new fuel rest
      else c1 :: replaceTiffFuel new fuel s1
    | _ => c1 :: replaceTiffFuel new fuel s1

/-- Python's `s.replace('.tiff', new)`. -/
def replaceTiff (new s : List Char) : List Char := replaceTiffFuel new s.length s

/-- `True` when the string contains an occurrence of `".tiff"`. -/
def containsTiff : List Char → Bool
  | [] => false
  | c1 :: s1 =>
    match s1 with
    | c2 :: c3 :: c4 :: c5 :: _ =>
      if c1 = '.' ∧ c2 = 't' ∧ c3 = 'i' ∧ c4 = 'f' ∧ c5 = 'f' then true
      else containsTiff s1
    | _ => false

/-- `metadata_path = output_path.replace('.tiff', '_nifti_metadata.txt')`. -/
def metadataPath (outPath : List Char) : List Char := replaceTiff metaChars outPath

/-- `True` when the string ends in `".txt"`. -/
def endsWithTxt (s : List Char) : Bool :=
  match s.reverse with
  | 't' :: 'x' :: 't' :: '.' :: _ => true
  | _ => false

/-- A NIfTI file as far as the converter observes it: the voxel array
stored in the container.  The affine matrix and the header text only
flow into the sidecar report and are not modelled. -/
structure NiftiImage where
  raw : NDArray

/-- nibabel's `img.get_fdata()`: whatever the on-disk dtype, the voxel
data is materialized as a float64 array (nibabel's documented default
`dtype=np.float64`; the optional scaling of values does not affect the
dtype and is not modelled). -/
def get_fdata (img : NiftiImage) : NDArray := ⟨DType.float64, img.raw.data⟩

/-- `load_nifti`, restricted to the voxel array it returns
(`img.get_fdata()`). -/
def load_nifti (img : NiftiImage) : NDArray := get_fdata img

/-- The observable results of `nifti_to_tiff`: the array handed to the
raster writer, the raster path, and the sidecar path. -/
structure ConversionResult where
  arr : NDArray
  outPath : List Char
  metaPath : List Char
deriving DecidableEq

/-- `nifti_to_tiff input_path output_path`: load, normalize, derive the
output path when none is supplied, and derive the sidecar path from the
output path.  The input path is presented as directory part plus file
name. -/
def nifti_to_tiff (img : NiftiImage) (parent fileName : List Char)
    (outPath? : Option (List Char)) : ConversionResult :=
  let data := normalizeArray (load_nifti img)
  let outPath :=
    match outPath? with
    | some p => p
    | none => deriveOutputPath parent fileName
  ⟨data, outPath, metadataPath outPath⟩

theorem foldlMin_le_init (xs : List ℚ) : ∀ x : ℚ, xs.foldl min x ≤ x := by
  induction xs with
  | nil => intro x; exact le_refl x
  | cons y ys ih =>
    intro x
    exact le_trans (ih (min x y)) (min_le_left x y)

theorem foldlMin_le_mem (xs : List ℚ) : ∀ x v : ℚ, v ∈ xs → xs.foldl min x ≤ v := by
  induction xs with
  | nil => intro x v hv; cases hv
  | cons y ys ih =>
    intro x v hv
    rcases List.mem_cons.mp hv with hv | hv
    · subst hv
      exact le_trans (foldlMin_le_init ys (min x v)) (min_le_right x v)
    · exact ih (min x y) v hv

theorem foldlMin_mem (xs : List ℚ) : ∀ x : ℚ, xs.foldl min x ∈ x :: xs := by
  induction xs with
  | nil => intro x; exact List.mem_singleton.mpr rfl
  | cons y ys ih =>
    intro x
    rcases List.mem_cons.mp (ih (min x y)) with h | h
    · rcases le_total x y with hxy | hxy
      · exact List.mem_cons.mpr (Or.inl (h.trans (min_eq_left hxy)))
      · exact List.mem_cons.mpr
          (Or.inr (List.mem_cons.mpr (Or.inl (h.trans (min_eq_right hxy)))))
    · exact List.mem_cons.mpr (Or.inr (List.mem_cons.mpr (Or.inr h)))

theorem foldlMax_init_le (xs : List ℚ) : ∀ x : ℚ, x ≤ xs.foldl max x := by
  induction xs with
  | nil => intro x; exact le_refl x
  | cons y ys ih =>
    intro x
    exact le_trans (le_max_left x y) (ih (max x y))

theorem foldlMax_mem_le (xs : List ℚ) : ∀ x v : ℚ, v ∈ xs → v ≤ xs.foldl max x := by
  induction xs with
  | nil => intro x v hv; cases hv
  | cons y ys ih =>
    intro x v hv
    rcases List.mem_cons.mp hv with hv | hv
    · subst hv
      exact le_trans (le_max_right x v) (foldlMax_init_le ys (max x v))
    · exact ih (max x y) v hv

theorem foldlMax_mem (xs : List ℚ) : ∀ x : ℚ, xs.foldl max x ∈ x :: xs := by
  induction xs with
  | nil => intro x; exact List.mem_singleton.mpr rfl
  | cons y ys ih =>
    intro x
    rcases List.mem_cons.mp (ih (max x y)) with h | h
    · rcases le_total x y with hxy | hxy
      · exact List.mem_cons.mpr
          (Or.inr (List.mem_cons.mpr (Or.inl (h.trans (max_eq_right hxy)))))
      · exact List.mem_cons.mpr (Or.inl (h.trans (max_eq_left hxy)))
    · exact List.mem_cons.mpr (Or.inr (List.mem_cons.mpr (Or.inr h)))

theorem dataMin_le (x : ℚ) (xs : List ℚ) : ∀ v ∈ x :: xs, dataMin (x :: xs) ≤ v := by
  intro v hv
  rcases List.mem_cons.mp hv with hv | hv
  · subst hv; exact foldlMin_le_init xs v
  · exact foldlMin_le_mem xs x v hv

theorem le_dataMax (x : ℚ) (xs : List ℚ) : ∀ v ∈ x :: xs, v ≤ dataMax (x :: xs) := by
  intro v hv
  rcases List.mem_cons.mp hv with hv | hv
  · subst hv; exact foldlMax_init_le xs v
  · exact foldlMax_mem_le xs x v hv

theorem dataMin_mem (x : ℚ) (xs : List ℚ) : dataMin (x :: xs) ∈ x :: xs :=
  foldlMin_mem xs x

theorem dataMax_mem (x : ℚ) (xs : List ℚ) : dataMax (x :: xs) ∈ x :: xs :=
  foldlMax_mem xs x

theorem normalizeArray_float64_rescale (l : List ℚ) (h : dataMax l > dataMin l) :
    normalizeArray ⟨DType.float64, l⟩
      = ⟨DType.uint16, l.map (fun v => ((normElem (dataMin l) (dataMax l) v : ℕ) : ℚ))⟩ := by
  simp [normalizeArray, h]

theorem normalizeArray_float64_cast (l : List ℚ) (h : ¬ dataMax l > dataMin l) :
    normalizeArray ⟨DType.float64, l⟩
      = ⟨DType.uint16, l.map (fun v => ((ratToUInt16 v : ℕ) : ℚ))⟩ := by
  simp [normalizeArray, h]

/-- C1: for every spacing vector with 3 or more axes, the Spacing
Remapper returns the first three spacing values in reversed order,
joined with commas as `"{z},{y},{x}"` using each value's default string
form; in particular the spacing whose values render as
`("0.5", "0.5", "2.0")` yields exactly `"2.0,0.5,0.5"`. -/
theorem spacing_remapper_reverses (α : Type) (fmt : α → String)
    (z0 z1 z2 : α) (rest : List α) :
    get_pixel_dimensions_from_nifti fmt (z0 :: z1 :: z2 :: rest)
        = fmt z2 ++ "," ++ fmt z1 ++ "," ++ fmt z0 ∧
    get_pixel_dimensions_from_nifti id ["0.5", "0.5", "2.0"] = "2.0,0.5,0.5" :=
  ⟨rfl, rfl⟩

/-- C5 counterexample: a spacing vector with 4 axes does NOT yield the
default `"1.0,1.0,1.0"`; the code reverses its first three values. -/
theorem spacing_remapper_four_axes :
    get_pixel_dimensions_from_nifti id ["0.5", "0.5", "2.0", "1.0"] = "2.0,0.5,0.5" ∧
    get_pixel_dimensions_from_nifti id ["0.5", "0.5", "2.0", "1.0"] ≠ "1.0,1.0,1.0" := by
  constructor
  · rfl
  · decide

/-- C5 (amended): a spacing vector with FEWER than 3 components yields
the default `"1.0,1.0,1.0"`; one with 3 or more components yields its
first three values reversed. -/
theorem spacing_remapper_default_amended (α : Type) (fmt : α → String) :
    (∀ zooms : List α, zooms.length < 3 →
        get_pixel_dimensions_from_nifti fmt zooms = "1.0,1.0,1.0") ∧
    (∀ (z0 z1 z2 : α) (rest : List α),
        get_pixel_dimensions_from_nifti fmt (z0 :: z1 :: z2 :: rest)
            = fmt z2 ++ "," ++ fmt z1 ++ "," ++ fmt z0) := by
  constructor
  · intro zooms h
    match zooms with
    | [] => rfl
    | [_] => rfl
    | [_, _] => rfl
    | _ :: _ :: _ :: _ => simp only [List.length_cons] at h; omega
  · intro z0 z1 z2 rest
    rfl

/-- C5 witness: the amended statement applied at a concrete
1-component spacing vector. -/
theorem spacing_remapper_default_amended_witness :
    get_pixel_dimensions_from_nifti id ["0.5"] = "1.0,1.0,1.0" :=
  (spacing_remapper_default_amended String id).1 ["0.5"] (by decide)

/-- C6: every spacing vector with fewer than 3 components yields
exactly the literal string `"1.0,1.0,1.0"`. -/
theorem spacing_remapper_short_default (α : Type) (fmt : α → String)
    (zooms : List α) (h : zooms.length < 3) :
    get_pixel_dimensions_from_nifti fmt zooms = "1.0,1.0,1.0" := by
  match zooms with
  | [] => rfl
  | [_] => rfl
  | [_, _] => rfl
  | _ :: _ :: _ :: _ => simp only [List.length_cons] at h; omega

/-- C6 witness: the theorem applied at the concrete 2-component
spacing vector `("0.5", "0.5")`. -/
theorem spacing_remapper_short_default_witness :
    get_pixel_dimensions_from_nifti id ["0.5", "0.5"] = "1.0,1.0,1.0" :=
  spacing_remapper_short_default String id ["0.5", "0.5"] (by decide)

/-- C9: on an array whose element type is integer, the Sample
Normalizer is the identity: the array passes through unmodified. -/
theorem normalizer_integer_identity (a : NDArray)
    (h : a.dtype.isInteger = true) : normalizeArray a = a := by
  obtain ⟨dt, data⟩ := a
  cases dt <;> simp [DType.isInteger] at h <;> rfl

/-- C9 witness: the theorem applied to a concrete `uint16` array. -/
theorem normalizer_integer_identity_witness :
    normalizeArray ⟨DType.uint16, [5, 70000]⟩ = ⟨DType.uint16, [5, 70000]⟩ :=
  normalizer_integer_identity ⟨DType.uint16, [5, 70000]⟩ rfl

/-- C10: `load_nifti` always materializes the voxel data as float64
(`get_fdata`), so the integer pass-through branch of the normalizer is
unreachable on the converter path and the array handed to the raster
writer always has dtype `uint16`. -/
theorem converter_always_uint16 (img : NiftiImage) (parent fileName : List Char)
    (outPath? : Option (List Char)) :
    (load_nifti img).dtype = DType.float64 ∧
    DType.isInteger (load_nifti img).dtype = false ∧
    (nifti_to_tiff img parent fileName outPath?).arr.dtype = DType.uint16 := by
  refine ⟨rfl, rfl, ?_⟩
  show (normalizeArray ⟨DType.float64, img.raw.data⟩).dtype = DType.uint16
  by_cases h : dataMax img.raw.data > dataMin img.raw.data
  · rw [normalizeArray_float64_rescale img.raw.data h]
  · rw [normalizeArray_float64_cast img.raw.data h]

theorem normElem_eq_floor (mn mx v : ℚ) (h : mn < mx) (hmn : mn ≤ v) (hmx : v ≤ mx) :
    ((normElem mn mx v : ℕ) : ℤ) = ⌊(v - mn) / (mx - mn) * 65535⌋ ∧
    normElem mn mx v ≤ 65535 := by
  have hd : (0:ℚ) < mx - mn := sub_pos.mpr h
  have h0 : (0:ℚ) ≤ (v - mn) / (mx - mn) * 65535 :=
    mul_nonneg (div_nonneg (sub_nonneg.mpr hmn) hd.le) (by norm_num)
  have h1 : (v - mn) / (mx - mn) * 65535 ≤ 65535 := by
    have hle1 : (v - mn) / (mx - mn) ≤ 1 := (div_le_one hd).mpr (sub_le_sub_right hmx mn)
    calc (v - mn) / (mx - mn) * 65535 ≤ 1 * 65535 :=
          mul_le_mul_of_nonneg_right hle1 (by norm_num)
      _ = 65535 := one_mul _
  have hf0 : (0:ℤ) ≤ ⌊(v - mn) / (mx - mn) * 65535⌋ := Int.floor_nonneg.mpr h0
  have hf1 : ⌊(v - mn) / (mx - mn) * 65535⌋ ≤ 65535 := by
    have hm := Int.floor_mono h1
    have h655 : ⌊(65535:ℚ)⌋ = 65535 := by decide
    omega
  constructor
  · unfold normElem ratToUInt16 ratTrunc
    rw [if_pos h0]
    omega
  · unfold normElem ratToUInt16 ratTrunc
    rw [if_pos h0]
    omega

theorem normElem_at_min (mn mx : ℚ) : normElem mn mx mn = 0 := by
  unfold normElem
  rw [sub_self, zero_div, zero_mul]
  decide

theorem normElem_at_max (mn mx : ℚ) (h : mn < mx) : normElem mn mx mx = 65535 := by
  unfold normElem
  rw [div_self (ne_of_gt (sub_pos.mpr h)), one_mul]
  decide

theorem ratToUInt16_eval (q : ℚ) (n : ℕ) (h0 : 0 ≤ q) (hfl : ⌊q⌋ = (n : ℤ))
    (hn : n < 65536) : ratToUInt16 q = n := by
  unfold ratToUInt16 ratTrunc
  rw [if_pos h0, hfl]
  omega

/-- C2: for every floating-point array with max > min, the normalizer
maps each sample `v` to `normElem min max v`; every output sample lies
in `[0, 65535]`, the value at the global minimum maps to `0`, and the
value at the global maximum maps to `65535` (both extrema are attained
by some position of the array). -/
theorem normalizer_range (x : ℚ) (xs : List ℚ)
    (h : dataMin (x :: xs) < dataMax (x :: xs)) :
    (normalizeArray ⟨DType.float64, x :: xs⟩).data
        = (x :: xs).map
            (fun v => ((normElem (dataMin (x :: xs)) (dataMax (x :: xs)) v : ℕ) : ℚ)) ∧
    (∀ u ∈ (normalizeArray ⟨DType.float64, x :: xs⟩).data, 0 ≤ u ∧ u ≤ 65535) ∧
    normElem (dataMin (x :: xs)) (dataMax (x :: xs)) (dataMin (x :: xs)) = 0 ∧
    normElem (dataMin (x :: xs)) (dataMax (x :: xs)) (dataMax (x :: xs)) = 65535 ∧
    dataMin (x :: xs) ∈ x :: xs ∧ dataMax (x :: xs) ∈ x :: xs := by
  have hr := normalizeArray_float64_rescale (x :: xs) h
  refine ⟨by rw [hr], ?_, normElem_at_min _ _, normElem_at_max _ _ h,
      dataMin_mem x xs, dataMax_mem x xs⟩
  intro u hu
  rw [hr] at hu
  obtain ⟨v, hv, rfl⟩ := List.mem_map.mp hu
  have hb := normElem_eq_floor (dataMin (x :: xs)) (dataMax (x :: xs)) v h
      (dataMin_le x xs v hv) (le_dataMax x xs v hv)
  constructor
  · exact_mod_cast Nat.zero_le _
  · exact_mod_cast hb.2

/-- C2 witness: the theorem applied to the concrete float64 array
`[0.0, 1.0, 2.0]`. -/
theorem normalizer_range_witness :
    dataMin [(0:ℚ), 1, 2] < dataMax [(0:ℚ), 1, 2] ∧
    (normalizeArray ⟨DType.float64, [0, 1, 2]⟩).data
        = [(0:ℚ), 1, 2].map
            (fun v => ((normElem (dataMin [(0:ℚ), 1, 2]) (dataMax [(0:ℚ), 1, 2]) v : ℕ) : ℚ)) :=
  ⟨by decide, (normalizer_range 0 [1, 2] (by decide)).1⟩

/-- C3 counterexample: on the float64 array `[0.0, 1.0, 2.0]` the code
produces `32767` for the middle sample (numpy's `astype(np.uint16)`
truncates), while rounding `(1 - 0) / (2 - 0) * 65535 = 32767.5` to the
nearest integer gives `32768`. -/
theorem normalizer_not_rounding :
    (normalizeArray ⟨DType.float64, [0, 1, 2]⟩).data = [0, 32767, 65535] ∧
    round (((1:ℚ) - 0) / (2 - 0) * 65535) = 32768 ∧
    (32767 : ℚ) ≠ 32768 := by
  refine ⟨?_, ?_, by norm_num⟩
  · rw [normalizeArray_float64_rescale [0, 1, 2] (by decide)]
    have hmn : dataMin [(0:ℚ), 1, 2] = 0 := by decide
    have hmx : dataMax [(0:ℚ), 1, 2] = 2 := by decide
    have e0 : normElem 0 2 0 = 0 := normElem_at_min 0 2
    have e2 : normElem 0 2 2 = 65535 := normElem_at_max 0 2 (by norm_num)
    have e1 : normElem 0 2 1 = 32767 := by
      unfold normElem
      have hq : ((1:ℚ) - 0) / (2 - 0) * 65535 = 65535 / 2 := by norm_num
      rw [hq]
      refine ratToUInt16_eval _ 32767 (by norm_num) ?_ (by norm_num)
      rw [Int.floor_eq_iff]
      norm_num
    simp [hmn, hmx, e0, e1, e2]
  · have hq : ((1:ℚ) - 0) / (2 - 0) * 65535 = 65535 / 2 := by norm_num
    rw [hq, round_eq]
    have hq2 : (65535:ℚ) / 2 + 1 / 2 = 32768 := by norm_num
    rw [hq2, Int.floor_eq_iff]
    norm_num

/-- C3 (amended): for every floating-point input array with max > min,
each normalized sample equals `⌊(v - min) / (max - min) * 65535⌋` — the
linearly rescaled value truncated toward zero (equivalently, its floor,
the scaled value being nonnegative) rather than rounded to nearest. -/
theorem normalizer_truncates (x : ℚ) (xs : List ℚ)
    (h : dataMin (x :: xs) < dataMax (x :: xs)) :
    (normalizeArray ⟨DType.float64, x :: xs⟩).data
        = (x :: xs).map
            (fun v => ((⌊(v - dataMin (x :: xs)) /
                (dataMax (x :: xs) - dataMin (x :: xs)) * 65535⌋.toNat : ℕ) : ℚ)) := by
  rw [normalizeArray_float64_rescale (x :: xs) h]
  show List.map _ _ = List.map _ _
  apply List.map_congr_left
  intro v hv
  have hb := normElem_eq_floor (dataMin (x :: xs)) (dataMax (x :: xs)) v h
      (dataMin_le x xs v hv) (le_dataMax x xs v hv)
  have hge : (0:ℤ) ≤ ⌊(v - dataMin (x :: xs)) /
      (dataMax (x :: xs) - dataMin (x :: xs)) * 65535⌋ := by
    rw [← hb.1]
    exact_mod_cast Nat.zero_le _
  have : (normElem (dataMin (x :: xs)) (dataMax (x :: xs)) v : ℤ)
      = (⌊(v - dataMin (x :: xs)) / (dataMax (x :: xs) - dataMin (x :: xs)) * 65535⌋.toNat : ℤ) := by
    rw [hb.1, Int.toNat_of_nonneg hge]
  have hnat : normElem (dataMin (x :: xs)) (dataMax (x :: xs)) v
      = ⌊(v - dataMin (x :: xs)) / (dataMax (x :: xs) - dataMin (x :: xs)) * 65535⌋.toNat := by
    exact_mod_cast this
  rw [hnat]

/-- C3 witness: the amended statement applied to the concrete float64
array `[0.0, 1.0, 2.0]`. -/
theorem normalizer_truncates_witness :
    dataMin [(0:ℚ), 1, 2] < dataMax [(0:ℚ), 1, 2] ∧
    (normalizeArray ⟨DType.float64, [0, 1, 2]⟩).data
        = [(0:ℚ), 1, 2].map
            (fun v => ((⌊(v - dataMin [(0:ℚ), 1, 2]) /
                (dataMax [(0:ℚ), 1, 2] - dataMin [(0:ℚ), 1, 2]) * 65535⌋.toNat : ℕ) : ℚ)) :=
  ⟨by decide, normalizer_truncates 0 [1, 2] (by decide)⟩

/-- C4: on a floating-point array whose minimum equals its maximum, the
rescaling branch (the only division in the normalizer) is skipped and
the array is cast directly to uint16, giving a constant output array;
no division is evaluated and no exception is raised. -/
theorem normalizer_constant (x : ℚ) (xs : List ℚ)
    (h : dataMin (x :: xs) = dataMax (x :: xs)) :
    normalizeArray ⟨DType.float64, x :: xs⟩
        = ⟨DType.uint16, (x :: xs).map (fun v => ((ratToUInt16 v : ℕ) : ℚ))⟩ ∧
    ∀ u ∈ (normalizeArray ⟨DType.float64, x :: xs⟩).data, u = ((ratToUInt16 x : ℕ) : ℚ) := by
  have hng : ¬ dataMax (x :: xs) > dataMin (x :: xs) := by
    rw [h]; exact lt_irrefl _
  have hc := normalizeArray_float64_cast (x :: xs) hng
  have hconst : ∀ v ∈ x :: xs, v = x := by
    intro v hv
    have h1 := dataMin_le x xs v hv
    have h2 := le_dataMax x xs v hv
    have h3 := dataMin_le x xs x (List.mem_cons.mpr (Or.inl rfl))
    have h4 := le_dataMax x xs x (List.mem_cons.mpr (Or.inl rfl))
    rw [← h] at h2 h4
    have hv' : v = dataMin (x :: xs) := le_antisymm h2 h1
    have hx' : x = dataMin (x :: xs) := le_antisymm h4 h3
    exact hv'.trans hx'.symm
  refine ⟨hc, ?_⟩
  intro u hu
  rw [hc] at hu
  obtain ⟨v, hv, rfl⟩ := List.mem_map.mp hu
  rw [hconst v hv]

/-- C4 witness: the theorem applied to the constant float64 array
`[3.5, 3.5]`; the output is the constant uint16 array `[3, 3]`. -/
theorem normalizer_constant_witness :
    dataMin [(7:ℚ)/2, 7/2] = dataMax [(7:ℚ)/2, 7/2] ∧
    normalizeArray ⟨DType.float64, [(7:ℚ)/2, 7/2]⟩ = ⟨DType.uint16, [3, 3]⟩ := by
  have hmm : dataMin [(7:ℚ)/2, 7/2] = dataMax [(7:ℚ)/2, 7/2] := by
    simp [dataMin, dataMax]
  refine ⟨hmm, ?_⟩
  rw [(normalizer_constant (7/2) [7/2] hmm).1]
  have h35 : ratToUInt16 ((7:ℚ)/2) = 3 := by
    refine ratToUInt16_eval _ 3 (by norm_num) ?_ (by norm_num)
    rw [Int.floor_eq_iff]
    norm_num
  simp [h35]

theorem dropDot_cons (c : Char) (s : List Char) :
    dropThroughFirstDot (c :: s) = if c = '.' then some s else dropThroughFirstDot s := rfl

theorem pyStem_nii_gz (b : List Char) :
    pyStem (b ++ ['.', 'n', 'i', 'i', '.', 'g', 'z']) = b ++ ['.', 'n', 'i', 'i'] := by
  have hrev : (b ++ ['.', 'n', 'i', 'i', '.', 'g', 'z']).reverse
      = 'z' :: 'g' :: '.' :: ('i' :: 'i' :: 'n' :: '.' :: b.reverse) := by
    simp
  have hhead : ¬ ('z' :: 'g' :: '.' :: ('i' :: 'i' :: 'n' :: '.' :: b.reverse)).head?
      = some '.' := by
    intro hcon
    injection hcon with hc
    exact absurd hc (by decide)
  unfold pyStem
  rw [hrev, if_neg hhead, dropDot_cons, if_neg (by decide : ¬('z' = '.')),
    dropDot_cons, if_neg (by decide : ¬('g' = '.')), dropDot_cons, if_pos rfl]
  simp

theorem pyStem_nii_ne (b : List Char) (hb : b ≠ []) :
    pyStem (b ++ ['.', 'n', 'i', 'i']) = b := by
  have hrev : (b ++ ['.', 'n', 'i', 'i']).reverse
      = 'i' :: 'i' :: 'n' :: '.' :: b.reverse := by
    simp
  have hhead : ¬ ('i' :: 'i' :: 'n' :: '.' :: b.reverse).head? = some '.' := by
    intro hcon
    injection hcon with hc
    exact absurd hc (by decide)
  unfold pyStem
  rw [hrev, if_neg hhead, dropDot_cons, if_neg (by decide : ¬('i' = '.')),
    dropDot_cons, if_neg (by decide : ¬('i' = '.')),
    dropDot_cons, if_neg (by decide : ¬('n' = '.')), dropDot_cons, if_pos rfl]
  simp [hb]

theorem endsWithNii_append (b : List Char) :
    endsWithNii (b ++ ['.', 'n', 'i', 'i']) = true := by
  have hrev : (b ++ ['.', 'n', 'i', 'i']).reverse
      = 'i' :: 'i' :: 'n' :: '.' :: b.reverse := by
    simp
  unfold endsWithNii
  rw [hrev]
  rfl

theorem stripNii_append (b : List Char) : stripNii (b ++ ['.', 'n', 'i', 'i']) = b := by
  simp [stripNii, endsWithNii_append]

theorem stripNii_id (b : List Char) (h : endsWithNii b = false) : stripNii b = b := by
  simp [stripNii, h]

/-- C7: the derived raster path strips the compression suffix and the
format suffix exactly once each and appends `".tiff"` in the same
directory: every `b ++ ".nii.gz"` yields `b ++ ".tiff"`, every
`b ++ ".nii"` (where `b` does not itself end in `".nii"`) yields
`b ++ ".tiff"`, and concretely `nifti_to_tiff` with no output path maps
`scan.nii.gz` and `scan.nii` to `scan.tiff` beside the input. -/
theorem derive_output_path_correct :
    (∀ b : List Char, deriveOutputName (b ++ ['.', 'n', 'i', 'i', '.', 'g', 'z'])
        = b ++ ['.', 't', 'i', 'f', 'f']) ∧
    (∀ b : List Char, endsWithNii b = false →
        deriveOutputName (b ++ ['.', 'n', 'i', 'i']) = b ++ ['.', 't', 'i', 'f', 'f']) ∧
    (∀ (parent : List Char) (img : NiftiImage),
        (nifti_to_tiff img parent ['s', 'c', 'a', 'n', '.', 'n', 'i', 'i', '.', 'g', 'z']
            none).outPath
          = parent ++ '/' :: ['s', 'c', 'a', 'n', '.', 't', 'i', 'f', 'f'] ∧
        (nifti_to_tiff img parent ['s', 'c', 'a', 'n', '.', 'n', 'i', 'i'] none).outPath
          = parent ++ '/' :: ['s', 'c', 'a', 'n', '.', 't', 'i', 'f', 'f']) := by
  have hgz : ∀ b : List Char, deriveOutputName (b ++ ['.', 'n', 'i', 'i', '.', 'g', 'z'])
      = b ++ ['.', 't', 'i', 'f', 'f'] := by
    intro b
    unfold deriveOutputName
    rw [pyStem_nii_gz, stripNii_append]
  have hnii : ∀ b : List Char, endsWithNii b = false →
      deriveOutputName (b ++ ['.', 'n', 'i', 'i']) = b ++ ['.', 't', 'i', 'f', 'f'] := by
    intro b h
    by_cases hb : b = []
    · subst hb
      decide
    · unfold deriveOutputName
      rw [pyStem_nii_ne b hb, stripNii_id b h]
  refine ⟨hgz, hnii, ?_⟩
  intro parent img
  constructor
  · show parent ++ '/' :: deriveOutputName ['s', 'c', 'a', 'n', '.', 'n', 'i', 'i', '.', 'g', 'z']
        = parent ++ '/' :: ['s', 'c', 'a', 'n', '.', 't', 'i', 'f', 'f']
    have h1 : deriveOutputName ['s', 'c', 'a', 'n', '.', 'n', 'i', 'i', '.', 'g', 'z']
        = ['s', 'c', 'a', 'n', '.', 't', 'i', 'f', 'f'] := by decide
    rw [h1]
  · show parent ++ '/' :: deriveOutputName ['s', 'c', 'a', 'n', '.', 'n', 'i', 'i']
        = parent ++ '/' :: ['s', 'c', 'a', 'n', '.', 't', 'i', 'f', 'f']
    have h2 : deriveOutputName ['s', 'c', 'a', 'n', '.', 'n', 'i', 'i']
        = ['s', 'c', 'a', 'n', '.', 't', 'i', 'f', 'f'] := by decide
    rw [h2]

/-- C7 witness: the `".nii"` clause applied at the concrete base name
`"scan"`. -/
theorem derive_output_path_witness :
    endsWithNii ['s', 'c', 'a', 'n'] = false ∧
    deriveOutputName (['s', 'c', 'a', 'n'] ++ ['.', 'n', 'i', 'i'])
      = ['s', 'c', 'a', 'n'] ++ ['.', 't', 'i', 'f', 'f'] :=
  ⟨by decide, derive_output_path_correct.2.1 ['s', 'c', 'a', 'n'] (by decide)⟩

theorem replaceTiffFuel_nil (new : List Char) (f : ℕ) : replaceTiffFuel new f [] = [] := by
  cases f <;> rfl

theorem replaceTiffFuel_cons5 (new : List Char) (f : ℕ) (c1 c2 c3 c4 c5 : Char)
    (rest : List Char) :
    replaceTiffFuel new (f + 1) (c1 :: c2 :: c3 :: c4 :: c5 :: rest)
      = if c1 = '.' ∧ c2 = 't' ∧ c3 = 'i' ∧ c4 = 'f' ∧ c5 = 'f' then
          new ++ replaceTiffFuel new f rest
        else c1 :: replaceTiffFuel new f (c2 :: c3 :: c4 :: c5 :: rest) := rfl

theorem containsTiff_cons5 (c1 c2 c3 c4 c5 : Char) (rest : List Char) :
    containsTiff (c1 :: c2 :: c3 :: c4 :: c5 :: rest)
      = if c1 = '.' ∧ c2 = 't' ∧ c3 = 'i' ∧ c4 = 'f' ∧ c5 = 'f' then true
        else containsTiff (c2 :: c3 :: c4 :: c5 :: rest) := rfl

theorem containsTiff_tail (c : Char) (s : List Char) (h : containsTiff (c :: s) = false) :
    containsTiff s = false := by
  rcases s with _ | ⟨a, _ | ⟨b2, _ | ⟨d, _ | ⟨e, rest⟩⟩⟩⟩
  · rfl
  · rfl
  · rfl
  · rfl
  · rw [containsTiff_cons5] at h
    by_cases hc : c = '.' ∧ a = 't' ∧ b2 = 'i' ∧ d = 'f' ∧ e = 'f'
    · rw [if_pos hc] at h
      exact absurd h (by decide)
    · rw [if_neg hc] at h
      exact h

theorem replaceTiffFuel_clean (new : List Char) :
    ∀ (b : List Char) (fuel : ℕ), containsTiff b = false →
      (b ++ ['.', 't', 'i', 'f', 'f']).length ≤ fuel →
      replaceTiffFuel new fuel (b ++ ['.', 't', 'i', 'f', 'f']) = b ++ new := by
  intro b
  induction b with
  | nil =>
    intro fuel _ hf
    match fuel, hf with
    | f + 1, _ =>
      show replaceTiffFuel new (f + 1) ('.' :: 't' :: 'i' :: 'f' :: 'f' :: []) = [] ++ new
      have hcond : ('.' : Char) = '.' ∧ ('t' : Char) = 't' ∧ ('i' : Char) = 'i'
          ∧ ('f' : Char) = 'f' ∧ ('f' : Char) = 'f' := by decide
      rw [replaceTiffFuel_cons5, if_pos hcond, replaceTiffFuel_nil, List.append_nil,
        List.nil_append]
  | cons c b' ih =>
    intro fuel h hf
    have htail := containsTiff_tail c b' h
    match fuel, hf with
    | f + 1, hf =>
      have hf' : (b' ++ ['.', 't', 'i', 'f', 'f']).length ≤ f := by
        simp only [List.length_append, List.length_cons] at hf ⊢
        omega
      have ihf := ih f htail hf'
      show replaceTiffFuel new (f + 1) (c :: (b' ++ ['.', 't', 'i', 'f', 'f']))
          = c :: (b' ++ new)
      rcases b' with _ | ⟨d1, _ | ⟨d2, _ | ⟨d3, _ | ⟨d4, b''⟩⟩⟩⟩
      · simp only [List.nil_append] at ihf ⊢
        rw [replaceTiffFuel_cons5,
          if_neg (fun hc => absurd hc.2.1 (by decide : ¬('.' : Char) = 't')), ihf]
      · simp only [List.cons_append, List.nil_append] at ihf ⊢
        rw [replaceTiffFuel_cons5,
          if_neg (fun hc => absurd hc.2.2.1 (by decide : ¬('.' : Char) = 'i')), ihf]
      · simp only [List.cons_append, List.nil_append] at ihf ⊢
        rw [replaceTiffFuel_cons5,
          if_neg (fun hc => absurd hc.2.2.2.1 (by decide : ¬('.' : Char) = 'f')), ihf]
      · simp only [List.cons_append, List.nil_append] at ihf ⊢
        rw [replaceTiffFuel_cons5,
          if_neg (fun hc => absurd hc.2.2.2.2 (by decide : ¬('.' : Char) = 'f')), ihf]
      · simp only [List.cons_append, List.nil_append] at ihf ⊢
        have hno : ¬(c = '.' ∧ d1 = 't' ∧ d2 = 'i' ∧ d3 = 'f' ∧ d4 = 'f') := by
          intro hc
          have htrue : containsTiff (c :: d1 :: d2 :: d3 :: d4 :: b'') = true := by
            rw [containsTiff_cons5, if_pos hc]
          rw [htrue] at h
          exact absurd h (by decide)
        rw [replaceTiffFuel_cons5, if_neg hno, ihf]

theorem replaceTiff_clean (new b : List Char) (h : containsTiff b = false) :
    replaceTiff new (b ++ ['.', 't', 'i', 'f', 'f']) = b ++ new :=
  replaceTiffFuel_clean new b (b ++ ['.', 't', 'i', 'f', 'f']).length h (le_refl _)

theorem endsWithTxt_meta (b : List Char) : endsWithTxt (b ++ metaChars) = true := by
  have hrev : (b ++ metaChars).reverse
      = 't' :: 'x' :: 't' :: '.' :: ('a' :: 't' :: 'a' :: 'd' :: 'a' :: 't' :: 'e' :: 'm'
        :: '_' :: 'i' :: 't' :: 'f' :: 'i' :: 'n' :: '_' :: b.reverse) := by
    simp [metaChars]
  unfold endsWithTxt
  rw [hrev]
  rfl

/-- C8 counterexample: `nifti_to_tiff` called with the explicit output
path `"result.png"` (which contains no `".tiff"`): `str.replace` finds
nothing to replace, so the sidecar path equals the raster path (it does
not differ) and does not end in `".txt"`. -/
theorem metadata_path_counterexample :
    (nifti_to_tiff ⟨⟨DType.float64, [0]⟩⟩ [] ['i', 'n']
        (some ['r', 'e', 's', 'u', 'l', 't', '.', 'p', 'n', 'g'])).metaPath
      = ['r', 'e', 's', 'u', 'l', 't', '.', 'p', 'n', 'g'] ∧
    (nifti_to_tiff ⟨⟨DType.float64, [0]⟩⟩ [] ['i', 'n']
        (some ['r', 'e', 's', 'u', 'l', 't', '.', 'p', 'n', 'g'])).outPath
      = ['r', 'e', 's', 'u', 'l', 't', '.', 'p', 'n', 'g'] ∧
    endsWithTxt ['r', 'e', 's', 'u', 'l', 't', '.', 'p', 'n', 'g'] = false := by
  refine ⟨by decide, by decide, by decide⟩

/-- C8 (amended): for every raster output path that ends in `".tiff"`
and contains no other occurrence of `".tiff"`, the sidecar path is the
output path with that trailing `".tiff"` replaced by
`"_nifti_metadata.txt"`; such a sidecar path differs from the raster
path and ends in `".txt"`.  (For an output path with no `".tiff"` at
all, the replacement leaves it unchanged, as the counterexample
shows.) -/
theorem metadata_path_correct (b : List Char) (h : containsTiff b = false) :
    metadataPath (b ++ tiffChars) = b ++ metaChars ∧
    metadataPath (b ++ tiffChars) ≠ b ++ tiffChars ∧
    endsWithTxt (metadataPath (b ++ tiffChars)) = true := by
  have h1 : metadataPath (b ++ tiffChars) = b ++ metaChars :=
    replaceTiff_clean metaChars b h
  refine ⟨h1, ?_, ?_⟩
  · rw [h1]
    intro hcon
    have hlen := congrArg List.length hcon
    simp only [List.length_append] at hlen
    have h19 : metaChars.length = 19 := rfl
    have h5 : tiffChars.length = 5 := rfl
    omega
  · rw [h1]
    exact endsWithTxt_meta b

/-- C8 witness: the amended statement applied to the derived output
path `"scan.tiff"`. -/
theorem metadata_path_correct_witness :
    containsTiff ['s', 'c', 'a', 'n'] = false ∧
    metadataPath (['s', 'c', 'a', 'n'] ++ tiffChars) = ['s', 'c', 'a', 'n'] ++ metaChars :=
  ⟨by decide, (metadata_path_correct ['s', 'c', 'a', 'n'] (by decide)).1⟩
